import Mathlib

/-!
Verification development for the littrow transactional table-access and
reactive-mirror synchronization engine.

The definitions below are a shallow embedding of the JavaScript source:
JS numbers are modelled as `Int`, JS strings as `String`, JS objects as
association lists of fields in insertion order, the durable IndexedDB
object store of one table as a keyed list of raw records, and the
reactive mirror as a list of validated records.  A JS function that can
throw is modelled as returning `Option` (`none` = a thrown exception).
`localeCompare` between two genuine strings is modelled as the sign of
code-point lexicographic comparison, and `String(undefined)` coercion as
the literal string "undefined", following standard JS semantics.
-/

/-- A valid identifier value: a JS number or a JS string.  These are the
values that actually occur as record identifiers (IndexedDB keys). -/
inductive Key where
  | num (n : Int)
  | str (s : String)
deriving DecidableEq, Repr

/-- A JS value that can appear as an argument of the recursive calls of
`idComparator`: a number, a string, or `undefined` (which arises from
property access `x.id` on a primitive). -/
inductive JsIdVal where
  | num (n : Int)
  | str (s : String)
  | jsUndefined
deriving DecidableEq, Repr

/-- Embed a `Key` into the JS value space. -/
def Key.toJs : Key → JsIdVal
  | .num n => .num n
  | .str s => .str s

/-- Argument type of `idComparator`: either a plain identifier value or a
record object carrying an `id` field (`{id: string|number} | string | number`
in the source's JSDoc). -/
inductive IdOrObject where
  | val (v : JsIdVal)
  | obj (id : JsIdVal)
deriving DecidableEq, Repr

/-- The JS regular-expression test `/^\d+$/.test(s)`: true when the string
is non-empty and made only of ASCII digits. -/
def isAllDigits (s : String) : Bool :=
  s.length > 0 && s.data.all (fun c => c.isDigit)

/-- `Number(s)` for a string already known to match `^\d+$`: decimal parse. -/
def jsDigitsToNat (s : String) : Nat :=
  s.data.foldl (fun n c => 10 * n + (c.toNat - 48)) 0

/-- Lexicographic three-way comparison of character sequences by code
point, the order used to model `localeCompare`. -/
def lexListCompare : List Char → List Char → Int
  | [], [] => 0
  | [], _ :: _ => -1
  | _ :: _, [] => 1
  | c :: cs, d :: ds =>
    if c.toNat < d.toNat then -1
    else if d.toNat < c.toNat then 1
    else lexListCompare cs ds

/-- The sign of `a.localeCompare(b)` for two genuine strings, modelled as
code-point lexicographic comparison. -/
def strCompareSign (a b : String) : Int :=
  lexListCompare a.data b.data

/-- `String(v)` coercion as performed by `localeCompare` on its argument:
`undefined` becomes the string "undefined". -/
def jsToString : JsIdVal → String
  | .num n => toString n
  | .str s => s
  | .jsUndefined => "undefined"

/-- The body of `idComparator` after the two object branches have been
passed (source lines 268-274): number cases, the `^\d+$` numeric-string
case, and the `localeCompare` fallback.  Returns `none` when the JS code
would throw (calling `.localeCompare` on `undefined`). -/
def idComparatorAux (a b : JsIdVal) : Option Int :=
  match a, b with
  | .num x, .num y => some (x - y)
  | .num _, _ => some (-1)
  | _, .num _ => some 1
  | .str x, b' =>
      if isAllDigits x && isAllDigits (jsToString b') then
        some ((jsDigitsToNat x : Int) - (jsDigitsToNat (jsToString b') : Int))
      else
        some (strCompareSign x (jsToString b'))
  | .jsUndefined, _ => none

/-- JS property access `x.id` on an `IdOrObject`: an object yields its
`id` field, a primitive yields `undefined`, and accessing a property of
`undefined` throws (`none`). -/
def idFieldOf : IdOrObject → Option JsIdVal
  | .obj v => some v
  | .val .jsUndefined => none
  | .val _ => some .jsUndefined

/-- The comparator `idComparator` (source lines 262-275): if either
argument is an object with an `id` field, recurse on `a.id` and `b.id`;
otherwise fall through to the primitive comparison rules. -/
def idComparator (a b : IdOrObject) : Option Int :=
  match a, b with
  | .obj x, b' => (idFieldOf b').bind (fun y => idComparatorAux x y)
  | a', .obj y => (idFieldOf a').bind (fun x => idComparatorAux x y)
  | .val x, .val y => idComparatorAux x y

/-- Total comparator on genuine identifier values, as used to order
records: it is `idComparator` applied to two records carrying those ids. -/
def keyCompare (a b : Key) : Int :=
  (idComparator (.obj a.toJs) (.obj b.toJs)).getD 0

/-- A raw JS record: an object given by its fields in insertion order.
Field values are modelled by the identifier value space, which is all the
claims need. -/
abbrev Raw : Type := List (String × Key)

/-- JS property read `r[k]`: the first field with that name, if any. -/
def objGet (r : Raw) (k : String) : Option Key :=
  match r with
  | [] => none
  | f :: fs => if f.1 = k then some f.2 else objGet fs k

/-- JS property write `r[k] = v`: replaces an existing field in place, or
appends a new field at the end. -/
def objSet (r : Raw) (k : String) (v : Key) : Raw :=
  match r with
  | [] => [(k, v)]
  | f :: fs => if f.1 = k then (k, v) :: fs else f :: objSet fs k v

/-- The primary-key value of a raw record: the `id` field, which is the
`keyPath` of every registered table (`indexes[0]`). -/
def idOfRaw (r : Raw) : Option Key :=
  objGet r "id"

/-- One table's durable object store, as a keyed list of raw records. -/
abbrev Store : Type := List Raw

/-- `db.get(table, key)`: the record stored under `key`, if any. -/
def storeGet (s : Store) (k : Key) : Option Raw :=
  match s with
  | [] => none
  | r :: rs => if idOfRaw r = some k then some r else storeGet rs k

/-- `db.put(table, v)`: replaces the record whose key equals `v`'s key,
or inserts `v` if no record has that key. -/
def storePut (s : Store) (v : Raw) : Store :=
  match s with
  | [] => [v]
  | r :: rs => if idOfRaw r = idOfRaw v then v :: rs else r :: storePut rs v

/-- `db.delete(table, key)`: removes the record stored under `key`. -/
def storeDel (s : Store) (k : Key) : Store :=
  s.filter (fun r => ¬ idOfRaw r = some k)

/-- Insert one element into a list sorted by the three-way comparator
`cmp`, placing it before the first strictly greater element (the stable
insertion used to model `Array.prototype.sort`). -/
def jsInsert {α : Type} (cmp : α → α → Int) (x : α) : List α → List α
  | [] => [x]
  | y :: ys => if cmp x y < 0 then x :: y :: ys else y :: jsInsert cmp x ys

/-- Tail of the stable sort: insert the remaining elements, left to
right, into the accumulator. -/
def jsSortAux {α : Type} (cmp : α → α → Int) : List α → List α → List α
  | acc, [] => acc
  | acc, x :: xs => jsSortAux cmp (jsInsert cmp x acc) xs

/-- `array.sort(cmp)` modelled as a stable comparison sort.  (With an
inconsistent comparator ECMAScript leaves the resulting order
implementation-defined; any stable comparison sort is a legitimate
model.) -/
def jsSort {α : Type} (cmp : α → α → Int) (l : List α) : List α :=
  jsSortAux cmp [] l

/-- The comparator actually passed to `sort` when ordering validated
records: `idComparator` applied to two objects carrying the records'
`id` values, as a total function (it never throws on genuine keys). -/
def recCmp {V : Type} (vid : V → Key) (a b : V) : Int :=
  keyCompare (vid a) (vid b)

/-- IndexedDB key ordering, used by `getAll`: numbers sort before
strings, numbers by value, strings by code-point order. -/
def idbKeyCmp : Option Key → Option Key → Int
  | some (.num x), some (.num y) => if x < y then -1 else if y < x then 1 else 0
  | some (.num _), _ => -1
  | _, some (.num _) => 1
  | some (.str x), some (.str y) => strCompareSign x y
  | some (.str _), none => -1
  | none, some (.str _) => 1
  | none, none => 0

/-- `db.getAll(table)`: every stored record, in ascending key order. -/
def getAllModel (s : Store) : List Raw :=
  jsSort (fun a b => idbKeyCmp (idOfRaw a) (idOfRaw b)) s

/-- Run the table's validator over a list of raw records, failing
(throwing) as soon as one record is rejected. -/
def assertAll {V : Type} (assert : Raw → Option V) : List Raw → Option (List V)
  | [] => some []
  | r :: rs =>
    match assert r, assertAll assert rs with
    | some v, some vs => some (v :: vs)
    | _, _ => none

/-- `list(tableName)` (source lines 240-252): `getAll`, validate every
record, then sort by `idComparator`. -/
def listAllModel {V : Type} (assert : Raw → Option V) (vid : V → Key) (s : Store) :
    Option (List V) :=
  (assertAll assert (getAllModel s)).map (fun l => jsSort (recCmp vid) l)

/-- `set(tableName, value)` (source lines 192-201): validate, then `put`
the raw value; throws when validation fails or the value has no key. -/
def setModel {V : Type} (assert : Raw → Option V) (s : Store) (v : Raw) : Option Store :=
  match assert v with
  | none => none
  | some _ =>
    match idOfRaw v with
    | none => none
    | some _ => some (storePut s v)

/-- `get(tableName, key)` (source lines 223-232): read the raw record and
validate it, or resolve to `undefined` (inner `none`) when the key is
absent; the outer `none` is a thrown `ValidationError`. -/
def getModel {V : Type} (assert : Raw → Option V) (s : Store) (k : Key) :
    Option (Option V) :=
  match storeGet s k with
  | none => some none
  | some r => (assert r).map some

/-- The observable state of one reactive table: its durable store and its
in-memory reactive mirror (`_tablesState[table]`), which holds validated
records. -/
structure TState (V : Type) where
  store : Store
  mirror : List V
deriving DecidableEq

/-- `wrangler.set(value)` (source lines 72-83): durably `set` the raw
value, compute the validated output, then either replace the mirror entry
with the same `id` in place, or push the output and re-sort the mirror. -/
def setStep {V : Type} (assert : Raw → Option V) (vid : V → Key) (st : TState V)
    (v : Raw) : Option (TState V) :=
  match assert v with
  | none => none
  | some out =>
    match idOfRaw v with
    | none => none
    | some k =>
      let store' := storePut st.store v
      match st.mirror.findIdx? (fun item => vid item = k) with
      | some i => some ⟨store', st.mirror.set i out⟩
      | none => some ⟨store', jsSort (recCmp vid) (st.mirror ++ [out])⟩

/-- `wrangler.update(key, property, value)` (source lines 92-123): read
the raw record from the durable store, return `false` if absent; mutate
the property, durably `set` the record back (validating it), then patch
the mirror entry for `key` in place, or refetch the entire list if the
key is not in the mirror; return `true`. -/
def updateStep {V : Type} (assert : Raw → Option V) (vid : V → Key) (st : TState V)
    (k : Key) (prop : String) (v : Key) : Option (TState V × Bool) :=
  match storeGet st.store k with
  | none => some (st, false)
  | some item =>
    let item' := objSet item prop v
    match assert item' with
    | none => none
    | some out =>
      match idOfRaw item' with
      | none => none
      | some _ =>
        let store' := storePut st.store item'
        match st.mirror.findIdx? (fun it => vid it = k) with
        | none => (listAllModel assert vid store').map (fun l => (⟨store', l⟩, true))
        | some i => some (⟨store', st.mirror.set i out⟩, true)

/-- `wrangler.remove(id)` (source lines 138-148): `drop` from the durable
store (whose logging re-lists the table, validating every record); then,
if the key is found in the reactive state, refetch the whole list, and
otherwise perform `delete array[-1]`, a no-op. -/
def removeStep {V : Type} (assert : Raw → Option V) (vid : V → Key) (st : TState V)
    (k : Key) : Option (TState V) :=
  let store' := storeDel st.store k
  match listAllModel assert vid store' with
  | none => none
  | some refreshed =>
    match st.mirror.findIdx? (fun it => vid it = k) with
    | some _ => some ⟨store', refreshed⟩
    | none => some ⟨store', st.mirror⟩

/-- A raw operation performed inside a transaction's object store. -/
inductive RawOp where
  | put (v : Raw)
  | del (k : Key)
  | clr
deriving DecidableEq

/-- Apply one raw store operation; `put` of a keyless value throws,
aborting the transaction. -/
def applyRawOp (s : Store) : RawOp → Option Store
  | .put v => (idOfRaw v).map (fun _ => storePut s v)
  | .del k => some (storeDel s k)
  | .clr => some []

/-- Apply the body of a transaction to the store, in order. -/
def applyRawOps (s : Store) : List RawOp → Option Store
  | [] => some s
  | op :: ops => (applyRawOp s op).bind (fun s' => applyRawOps s' ops)

/-- A transaction over this table through `openTransaction` (source lines
325-356): apply the raw actions, commit, then refresh the table's mirror
from the full validated listing. -/
def txnStep {V : Type} (assert : Raw → Option V) (vid : V → Key) (st : TState V)
    (ops : List RawOp) : Option (TState V) :=
  match applyRawOps st.store ops with
  | none => none
  | some store' => (listAllModel assert vid store').map (fun l => ⟨store', l⟩)

/-- One completed operation against a reactive table. -/
inductive Op where
  | set (v : Raw)
  | add (v : Raw) (gid : String)
  | update (k : Key) (prop : String) (v : Key)
  | remove (k : Key)
  | clear
  | txn (ops : List RawOp)
deriving DecidableEq

/-- One step of the wrangler; `none` models the operation throwing
(a non-completed operation).  `add` (source lines 125-130) is `set` of
the value with a freshly generated `id`; `clear` (source lines 131-134)
empties the durable store and resets the mirror. -/
def step {V : Type} (assert : Raw → Option V) (vid : V → Key) (st : TState V) :
    Op → Option (TState V)
  | .set v => setStep assert vid st v
  | .add v gid => setStep assert vid st (objSet v "id" (.str gid))
  | .update k prop v => (updateStep assert vid st k prop v).map Prod.fst
  | .remove k => removeStep assert vid st k
  | .clear => some ⟨[], []⟩
  | .txn ops => txnStep assert vid st ops

/-- Run a sequence of operations from a state; `none` as soon as one
operation throws. -/
def runOps {V : Type} (assert : Raw → Option V) (vid : V → Key) (st : TState V) :
    List Op → Option (TState V)
  | [] => some st
  | op :: ops => (step assert vid st op).bind (fun st' => runOps assert vid st' ops)

/-- True of every operation except an `update` that targets the
primary-key field itself. -/
def nonIdUpdate : Op → Bool
  | .update _ prop _ => prop ≠ "id"
  | _ => true

/-- The registered tables (source lines 703-710). -/
inductive TableName where
  | image
  | imageFile
  | observation
  | metadata
  | protocol
  | settings
deriving DecidableEq

/-- The name string of each registered table. -/
def tableNameStr : TableName → String
  | .image => "Image"
  | .imageFile => "ImageFile"
  | .observation => "Observation"
  | .metadata => "Metadata"
  | .protocol => "Protocol"
  | .settings => "Settings"

/-- `NO_REACTIVE_STATE_TABLES` (source line 691). -/
def NO_REACTIVE_STATE_TABLES : List TableName := [.imageFile]

/-- `isReactiveTable(name)` (source lines 699-701): true when the name is
different from every entry of `NO_REACTIVE_STATE_TABLES`. -/
def isReactiveTable (name : TableName) : Bool :=
  NO_REACTIVE_STATE_TABLES.all (fun n => n ≠ name)

/-- `c.toLowerCase()` for one ASCII character. -/
def jsLowerChar (c : Char) : Char :=
  if 65 ≤ c.toNat ∧ c.toNat ≤ 90 then Char.ofNat (c.toNat + 32) else c

/-- A base-36 digit printed as `Number.prototype.toString(36)` prints it:
`0`-`9` then `a`-`z`. -/
def base36Char (d : Fin 36) : Char :=
  if d.val < 10 then Char.ofNat (48 + d.val) else Char.ofNat (87 + d.val)

/-- `Math.random().toString(36)`: the random double rendered in base 36.
The double is determined by its finite list of fractional base-36 digits
with no trailing zero (the shortest representation); the empty list is
the value `0`, printed as `"0"`, and any other value prints as `"0."`
followed by its digits. -/
def randomToString36 (digits : List (Fin 36)) : String :=
  match digits with
  | [] => "0"
  | _ :: _ => ⟨'0' :: '.' :: digits.map base36Char⟩

/-- `s.slice(from, to)`: the characters at indices `[from, to)`. -/
def jsSlice (s : String) (a b : Nat) : String :=
  ⟨(s.data.drop a).take (b - a)⟩

/-- `s.toLowerCase()` restricted to what `generateId` lowercases. -/
def jsToLower (s : String) : String :=
  ⟨s.data.map jsLowerChar⟩

/-- `generateId(table)` (source lines 51-53): the first character of the
table name lowercased, then characters 2 to 8 of the random value's
base-36 rendering.  The second argument is the random source's value,
given by its base-36 fractional digits. -/
def generateId (table : TableName) (digits : List (Fin 36)) : String :=
  jsToLower (jsSlice (tableNameStr table) 0 1) ++ jsSlice (randomToString36 digits) 2 9

/-- ASCII `[a-z]`. -/
def isLowerAscii (c : Char) : Bool :=
  97 ≤ c.toNat && c.toNat ≤ 122

/-- ASCII `[0-9a-z]`. -/
def isBase36Ascii (c : Char) : Bool :=
  (48 ≤ c.toNat && c.toNat ≤ 57) || isLowerAscii c

/-- The regular expression `^[a-z][0-9a-z]{n}$` as a predicate. -/
def matchesIdShape (s : String) (n : Nat) : Bool :=
  match s.data with
  | [] => false
  | c :: rest => isLowerAscii c && rest.all isBase36Ascii && rest.length = n

/-- The regular expression `^[a-z][0-9a-z]{lo,hi}$` as a predicate. -/
def matchesIdShapeBetween (s : String) (lo hi : Nat) : Bool :=
  match s.data with
  | [] => false
  | c :: rest => isLowerAscii c && rest.all isBase36Ascii
      && lo ≤ rest.length && rest.length ≤ hi

/-- An observable action of the transaction wrapper: opening the
underlying store transaction, committing it, or refreshing one reactive
table's mirror. -/
inductive Event where
  | openTx
  | commitTx
  | refresh (t : TableName)
deriving DecidableEq

/-- `openTransaction(tableNames, {mode, tx}, actions)` (source lines
325-356), instrumented by the trace of its observable actions.  A handle
is a transaction identifier; the body receives the handle it must run
against and reports its own trace plus an optional raised error.  With an
ambient handle the body is invoked directly on it; otherwise a new handle
is opened, the body runs on it, and on success the handle is committed
and every reactive table among `tableNames` is refreshed, in order. -/
def openTxModel {E : Type} (tableNames : List TableName) (amb : Option Nat)
    (body : Nat → List Event × Option E) : List Event × Option E :=
  match amb with
  | some h => body h
  | none =>
    match body 0 with
    | (ev, some e) => (Event.openTx :: ev, some e)
    | (ev, none) =>
        (Event.openTx :: ev ++ [Event.commitTx]
          ++ (tableNames.filter isReactiveTable).map Event.refresh, none)

/-- A tree of `openTransaction` calls: each call names its tables and
contains the nested calls its body makes, every one of which is handed
the caller's transaction handle. -/
inductive TxCall where
  | mk (tableNames : List TableName) (nested : List TxCall)

mutual

/-- The trace of one call of the wrapper, given the ambient handle it is
passed (none for the outermost call). -/
def runCall : TxCall → Option Nat → List Event
  | .mk _ nested, some h => runNested nested h
  | .mk tns nested, none =>
      Event.openTx :: runNested nested 0 ++ [Event.commitTx]
        ++ (tns.filter isReactiveTable).map Event.refresh

/-- The trace of a body consisting of nested wrapper calls, all sharing
the passed-down handle. -/
def runNested : List TxCall → Nat → List Event
  | [], _ => []
  | c :: cs, h => runCall c (some h) ++ runNested cs h

end

/-- A concrete validator instance used to exercise the generic theorems:
it accepts exactly the records carrying an `id` field and returns them
unchanged. -/
def assertIdentity : Raw → Option Raw :=
  fun r => if (objGet r "id").isSome then some r else none

/-- The `id` of a validated record under `assertIdentity`. -/
def vidField : Raw → Key :=
  fun r => (objGet r "id").getD (.str "")

/-- Whether a transaction-wrapper event is a mirror refresh. -/
def isRefreshEvent : Event → Bool
  | .refresh _ => true
  | _ => false

/-- The non-strict order induced by a three-way comparator. -/
def leOf {α : Type} (cmp : α → α → Int) (a b : α) : Prop :=
  cmp a b ≤ 0

/-- Raw records with different keys, the separation maintained by the
durable store. -/
def idNe (a b : Raw) : Prop :=
  idOfRaw a ≠ idOfRaw b

/-- The validated contents of the durable store: every stored record
passed through the table's validator. -/
def validatedOf {V : Type} (assert : Raw → Option V) (s : Store) : List V :=
  s.filterMap assert

/-- The consistency invariant between one reactive table's durable store
and its mirror: every stored record validates, stored keys are pairwise
distinct, the mirror holds exactly the validated store contents (as a
multiset), and consecutive mirror records are in comparator order. -/
def mirrorInv {V : Type} (assert : Raw → Option V) (vid : V → Key)
    (st : TState V) : Prop :=
  (∀ r ∈ st.store, (assert r).isSome) ∧
  st.store.Pairwise idNe ∧
  st.mirror.Perm (validatedOf assert st.store) ∧
  st.mirror.Chain' (leOf (recCmp vid))

example : idComparatorAux (.str "2") (.str "10") = some (-8) := by decide
example : idComparatorAux (.str "2") (.str "b") = some (-1) := by decide
example : idComparatorAux (.str "b") (.str "a") = some 1 := by decide
example : idComparator (.obj (.str "b")) (.val (.str "a")) = some (-1) := by decide
example : keyCompare (.str "07") (.str "7") = 0 := by decide

theorem lexListCompare_flip (a b : List Char) :
    lexListCompare a b = -lexListCompare b a := by
  induction a generalizing b with
  | nil => cases b <;> simp [lexListCompare]
  | cons c cs ih =>
    cases b with
    | nil => simp [lexListCompare]
    | cons d ds =>
      by_cases h1 : c.toNat < d.toNat
      · have h2 : ¬ d.toNat < c.toNat := by omega
        simp [lexListCompare, h1, h2]
      · by_cases h2 : d.toNat < c.toNat
        · simp [lexListCompare, h1, h2]
        · simp [lexListCompare, h1, h2, ih ds]

theorem strCompareSign_flip (a b : String) :
    strCompareSign a b = -strCompareSign b a := by
  simpa [strCompareSign] using lexListCompare_flip a.data b.data

theorem keyCompare_eq_aux (a b : Key) :
    keyCompare a b = (idComparatorAux a.toJs b.toJs).getD 0 := rfl

theorem keyCompare_flip (a b : Key) : keyCompare a b = -keyCompare b a := by
  cases a with
  | num x =>
    cases b with
    | num y => simp [keyCompare_eq_aux, Key.toJs, idComparatorAux]
    | str t => simp [keyCompare_eq_aux, Key.toJs, idComparatorAux]
  | str s =>
    cases b with
    | num y => simp [keyCompare_eq_aux, Key.toJs, idComparatorAux]
    | str t =>
      simp only [keyCompare_eq_aux, Key.toJs, idComparatorAux, jsToString]
      by_cases hs : isAllDigits s = true
      · by_cases ht : isAllDigits t = true
        · simp [hs, ht]
        · simp [hs, ht, strCompareSign_flip s t]
      · simp [hs, Bool.and_comm, strCompareSign_flip s t]


theorem jsInsert_perm {α : Type} (cmp : α → α → Int) (x : α) (l : List α) :
    (jsInsert cmp x l).Perm (x :: l) := by
  induction l with
  | nil => simp [jsInsert]
  | cons y ys ih =>
    by_cases h : cmp x y < 0
    · simp [jsInsert, h]
    · simp only [jsInsert, h, if_false]
      exact (ih.cons y).trans (List.Perm.swap x y ys)

theorem jsSortAux_perm {α : Type} (cmp : α → α → Int) (l acc : List α) :
    (jsSortAux cmp acc l).Perm (acc ++ l) := by
  induction l generalizing acc with
  | nil => simp [jsSortAux]
  | cons x xs ih =>
    exact ((ih (jsInsert cmp x acc)).trans
      ((jsInsert_perm cmp x acc).append_right xs)).trans List.perm_middle.symm

theorem jsSort_perm {α : Type} (cmp : α → α → Int) (l : List α) :
    (jsSort cmp l).Perm l := by
  simpa [jsSort] using jsSortAux_perm cmp l []

theorem jsInsert_chain {α : Type} (cmp : α → α → Int)
    (hanti : ∀ a b : α, ¬ cmp a b < 0 → cmp b a ≤ 0) (x : α) (l : List α)
    (h : l.Chain' (leOf cmp)) : (jsInsert cmp x l).Chain' (leOf cmp) := by
  induction l with
  | nil => simp [jsInsert]
  | cons y ys ih =>
    by_cases hxy : cmp x y < 0
    · simp only [jsInsert, hxy, if_true]
      exact List.Chain'.cons (le_of_lt hxy) h
    · simp only [jsInsert, hxy, if_false]
      rw [List.chain'_cons']
      refine ⟨?_, ih h.tail⟩
      intro z hz
      cases ys with
      | nil =>
        simp [jsInsert] at hz
        subst hz
        exact hanti x y hxy
      | cons w ws =>
        by_cases hxw : cmp x w < 0
        · simp [jsInsert, hxw] at hz
          subst hz
          exact hanti x y hxy
        · simp [jsInsert, hxw] at hz
          subst hz
          exact (List.chain'_cons.mp h).1

theorem jsSortAux_chain {α : Type} (cmp : α → α → Int)
    (hanti : ∀ a b : α, ¬ cmp a b < 0 → cmp b a ≤ 0) (l acc : List α)
    (h : acc.Chain' (leOf cmp)) : (jsSortAux cmp acc l).Chain' (leOf cmp) := by
  induction l generalizing acc with
  | nil => simpa [jsSortAux] using h
  | cons x xs ih => exact ih (jsInsert cmp x acc) (jsInsert_chain cmp hanti x acc h)

theorem jsSort_chain {α : Type} (cmp : α → α → Int)
    (hanti : ∀ a b : α, ¬ cmp a b < 0 → cmp b a ≤ 0) (l : List α) :
    (jsSort cmp l).Chain' (leOf cmp) := by
  exact jsSortAux_chain cmp hanti l [] (by simp)

theorem recCmp_anti {V : Type} (vid : V → Key) :
    ∀ a b : V, ¬ recCmp vid a b < 0 → recCmp vid b a ≤ 0 := by
  intro a b h
  have := keyCompare_flip (vid a) (vid b)
  simp only [recCmp] at h ⊢
  omega

/-- C3 counterexample: on the mixed pair `({id:"b"}, "a")` the comparator
does not compare the record by its primary-key value.  The code evaluates
`idComparator("b", undefined)` and ends in `"b".localeCompare(undefined)`,
comparing `"b"` against the string `"undefined"`, which is negative,
whereas comparing the record's key `"b"` with `"a"` is positive. -/
theorem idComparator_mixed_args_cex :
    idComparator (.obj (.str "b")) (.val (.str "a")) = some (-1) ∧
    idComparatorAux (.str "b") (.str "a") = some 1 := by decide

/-- C3 amended: restricted to argument pairs that are both identifiers or
both records, `compare` satisfies the contract: a record argument is
compared by its primary-key value recursively, two numbers compare by
numeric subtraction, exactly one number sorts first, two digit-only
strings compare as integers, anything else compares lexicographically;
in particular compare("2","10") < 0, compare("2","b") < 0 and
compare("b","a") > 0. -/
theorem idComparator_contract_on_uniform_args :
    (∀ x y : JsIdVal, idComparator (.obj x) (.obj y) = idComparatorAux x y) ∧
    (∀ x y : Int, idComparator (.val (.num x)) (.val (.num y)) = some (x - y)) ∧
    (∀ (x : Int) (s : String),
      idComparator (.val (.num x)) (.val (.str s)) = some (-1) ∧
      idComparator (.val (.str s)) (.val (.num x)) = some 1) ∧
    (∀ s t : String, isAllDigits s = true → isAllDigits t = true →
      idComparator (.val (.str s)) (.val (.str t)) =
        some ((jsDigitsToNat s : Int) - (jsDigitsToNat t : Int))) ∧
    (∀ s t : String, (isAllDigits s && isAllDigits t) = false →
      idComparator (.val (.str s)) (.val (.str t)) = some (strCompareSign s t)) ∧
    (∃ n : Int, idComparator (.val (.str "2")) (.val (.str "10")) = some n ∧ n < 0) ∧
    (∃ n : Int, idComparator (.val (.str "2")) (.val (.str "b")) = some n ∧ n < 0) ∧
    (∃ n : Int, idComparator (.val (.str "b")) (.val (.str "a")) = some n ∧ n > 0) := by
  refine ⟨fun x y => rfl, fun x y => rfl, fun x s => ⟨rfl, rfl⟩, ?_, ?_, ?_, ?_, ?_⟩
  · intro s t hs ht
    simp [idComparator, idComparatorAux, jsToString, hs, ht]
  · intro s t h
    simp [idComparator, idComparatorAux, jsToString, h]
  · exact ⟨-8, by decide, by decide⟩
  · exact ⟨-1, by decide, by decide⟩
  · exact ⟨1, by decide, by decide⟩

/-- C3 amended witness, at the concrete pairs ("2","10") and ("2","b"). -/
theorem idComparator_contract_on_uniform_args_witness :
    idComparator (.val (.str "2")) (.val (.str "10")) = some (-8) ∧
    idComparator (.val (.str "2")) (.val (.str "b")) = some (strCompareSign "2" "b") :=
  ⟨(idComparator_contract_on_uniform_args.2.2.2.1 "2" "10" (by decide)
      (by decide)).trans (by decide),
   idComparator_contract_on_uniform_args.2.2.2.2.1 "2" "b" (by decide)⟩

theorem storeGet_storePut_self (s : Store) (v : Raw) (k : Key)
    (hid : idOfRaw v = some k) : storeGet (storePut s v) k = some v := by
  induction s with
  | nil => simp [storePut, storeGet, List.find?, hid]
  | cons r rs ih =>
    by_cases h : idOfRaw r = idOfRaw v
    · simp [storePut, storeGet, List.find?, h, hid]
    · have hr : ¬ idOfRaw r = some k := by rw [hid] at h; exact h
      simpa [storePut, storeGet, List.find?, h, hr] using ih

/-- C4: for every table validator and every record it accepts, writing
the record with `set` and reading it back with `get` at the record's
primary-key value returns exactly the validator's output. -/
theorem set_then_get_roundtrip {V : Type} (assert : Raw → Option V) (s : Store)
    (r : Raw) (v : V) (k : Key) (hacc : assert r = some v)
    (hid : idOfRaw r = some k) :
    ∃ s', setModel assert s r = some s' ∧ getModel assert s' k = some (some v) := by
  refine ⟨storePut s r, ?_, ?_⟩
  · simp [setModel, hacc, hid]
  · simp [getModel, storeGet_storePut_self s r k hid, hacc]

/-- C4 witness: a concrete record through the concrete validator. -/
theorem set_then_get_roundtrip_witness :
    ∃ s', setModel assertIdentity [] [("id", Key.str "w1"), ("name", Key.str "x")]
        = some s' ∧
      getModel assertIdentity s' (Key.str "w1")
        = some (some [("id", Key.str "w1"), ("name", Key.str "x")]) :=
  set_then_get_roundtrip assertIdentity [] [("id", Key.str "w1"), ("name", Key.str "x")]
    [("id", Key.str "w1"), ("name", Key.str "x")] (Key.str "w1") (by decide) (by decide)

/-- C10: when the durable store holds nothing at the key, `get` resolves
to `undefined` (the inner `none`) without throwing (the outer value is
`some`), and without invoking the table's validator: the result is the
same for every validator. -/
theorem get_missing_key_bypasses_validation {V : Type} (s : Store) (k : Key)
    (hmiss : storeGet s k = none) :
    ∀ assert : Raw → Option V, getModel assert s k = some none := by
  intro assert
  simp [getModel, hmiss]

/-- C10 witness: a store holding only key "b", probed at key "a". -/
theorem get_missing_key_bypasses_validation_witness :
    getModel assertIdentity [[("id", Key.str "b")]] (Key.str "a") = some none :=
  get_missing_key_bypasses_validation [[("id", Key.str "b")]] (Key.str "a")
    (by decide) assertIdentity

theorem base36Char_ascii : ∀ d : Fin 36, isBase36Ascii (base36Char d) = true := by decide

theorem generateId_data (table : TableName) (digits : List (Fin 36)) :
    (generateId table digits).data
      = jsLowerChar ((tableNameStr table).data.headD ' ')
          :: (digits.map base36Char).take 7 := by
  cases table <;> cases digits <;> rfl

/-- C9 counterexample: when the random source yields 0.5 — whose base-36
rendering is "0.i", a single fractional digit (digit 18) — `generateId`
for table Image returns "ii": one random character, not seven, so the
result does not match `^[a-z][0-9a-z]{7}$`. -/
theorem generateId_short_random_cex :
    generateId .image [18] = "ii" ∧ matchesIdShape "ii" 7 = false := by
  constructor
  · rfl
  · decide

/-- C9 amended: `generateId` returns the table name's first character
lowercased followed by the first at-most-7 base-36 fractional digits of
the random value, hence always matches `^[a-z][0-9a-z]{0,7}$`; it matches
`^[a-z][0-9a-z]{7}$` exactly when the random value's shortest base-36
fractional expansion has at least 7 digits. -/
theorem generateId_shape (table : TableName) (digits : List (Fin 36)) :
    matchesIdShapeBetween (generateId table digits) 0 7 = true ∧
    (7 ≤ digits.length → matchesIdShape (generateId table digits) 7 = true) ∧
    (generateId table digits).length = 1 + min 7 digits.length := by
  have hdata := generateId_data table digits
  have hlower : isLowerAscii (jsLowerChar ((tableNameStr table).data.headD ' ')) = true := by
    cases table <;> decide
  have hall : ∀ c ∈ (digits.map base36Char).take 7, isBase36Ascii c = true := by
    intro c hc
    obtain ⟨d, _, rfl⟩ := List.mem_map.mp ((List.take_sublist 7 _).subset hc)
    exact base36Char_ascii d
  have hlen : ((digits.map base36Char).take 7).length = min 7 digits.length := by
    simp [List.length_take]
  refine ⟨?_, ?_, ?_⟩
  · simp only [matchesIdShapeBetween, hdata, hlower, List.all_eq_true.mpr hall, hlen,
      Bool.true_and]
    simp only [decide_eq_true_eq, Nat.zero_le, true_and]
    simp [Bool.and_eq_true, decide_eq_true_eq]
  · intro h7
    simp only [matchesIdShape, hdata, hlower, List.all_eq_true.mpr hall, hlen,
      Bool.true_and]
    simp [Bool.and_eq_true, decide_eq_true_eq]
    omega
  · show (generateId table digits).data.length = _
    rw [hdata]
    simp only [List.length_cons, hlen]
    omega

/-- C9 amended witness: an 8-digit random expansion for table Image gives
an id matching `^i[0-9a-z]{7}$`. -/
theorem generateId_shape_witness :
    matchesIdShape (generateId .image [1, 2, 3, 4, 5, 6, 7, 8]) 7 = true :=
  (generateId_shape .image [1, 2, 3, 4, 5, 6, 7, 8]).2.1 (by decide)

/-- C2 evaluation at the failing input (code bug): with the store holding
keys "a" and "b" and a drifted, empty mirror, `remove("a")` deletes "a"
durably and completes without throwing, but leaves the mirror empty —
the key is absent from the mirror, yet no refresh happens, because the
source's branch condition is inverted (`index !== -1` guards the
"re-fetch" branch whose own log message says "not found in reactive
state, re-fetching", and the other branch performs the no-op
`delete array[-1]`).  A refresh, as the claim requires, would have set
the mirror to the one remaining record "b". -/
theorem remove_inverted_branch_eval :
    removeStep assertIdentity vidField
        ⟨[[("id", Key.str "a")], [("id", Key.str "b")]], []⟩ (Key.str "a")
      = some ⟨[[("id", Key.str "b")]], []⟩ ∧
    listAllModel assertIdentity vidField [[("id", Key.str "b")]]
      = some [[("id", Key.str "b")]] ∧
    ([] : List Raw) ≠ [[("id", Key.str "b")]] := by
  refine ⟨by decide, by decide, by decide⟩

mutual

theorem runCall_shared_eq_nil : ∀ (c : TxCall) (h : Nat), runCall c (some h) = []
  | .mk _ nested, h => by
    rw [runCall]
    exact runNested_shared_eq_nil nested h

theorem runNested_shared_eq_nil : ∀ (cs : List TxCall) (h : Nat), runNested cs h = []
  | [], _ => by rw [runNested]
  | c :: cs, h => by
    rw [runNested, runCall_shared_eq_nil c h, runNested_shared_eq_nil cs h]
    rfl

end

/-- C5: given an ambient transaction handle, the wrapper invokes the body
directly with that handle and adds no open, no commit and no refresh;
consequently a tree of nested wrapper calls that all share the
passed-down handle performs exactly one commit, and its refresh events
are exactly one per reactive table named by the outermost call. -/
theorem withTransaction_ambient_delegation :
    (∀ (E : Type) (tns : List TableName) (h : Nat)
        (body : Nat → List Event × Option E),
      openTxModel tns (some h) body = body h) ∧
    (∀ (tns : List TableName) (nested : List TxCall),
      (runCall (.mk tns nested) none).count Event.commitTx = 1 ∧
      (runCall (.mk tns nested) none).filter isRefreshEvent
        = (tns.filter isReactiveTable).map Event.refresh) := by
  refine ⟨fun E tns h body => rfl, fun tns nested => ?_⟩
  rw [runCall, runNested_shared_eq_nil nested 0]
  constructor
  · simp only [List.nil_append, List.count_cons, List.count_append]
    have hz : ((tns.filter isReactiveTable).map Event.refresh).count Event.commitTx = 0 := by
      rw [List.count_eq_zero]
      intro hmem
      obtain ⟨t, _, ht⟩ := List.mem_map.mp hmem
      exact absurd ht (by simp)
    simp [hz, List.count_singleton]
  · simp only [List.nil_append, List.filter_cons, List.filter_append]
    have h1 : isRefreshEvent Event.openTx = false := rfl
    have h2 : isRefreshEvent Event.commitTx = false := rfl
    simp only [h1, h2, if_false, List.filter_nil, List.nil_append]
    rw [List.filter_map]
    have : (isRefreshEvent ∘ Event.refresh) = fun _ => true := by
      funext t
      rfl
    simp [this]

/-- C6: when the wrapper opens a new handle and the body returns
successfully, the handle is committed, and strictly after the commit and
before the wrapper returns, each reactive table among the requested names
is refreshed, in sequence; every refresh event belongs to a reactive
table, and `ImageFile` is not reactive, so it is never refreshed. -/
theorem withTransaction_commit_then_refresh {E : Type} (tns : List TableName)
    (body : Nat → List Event × Option E) (ev : List Event)
    (hbody : body 0 = (ev, none)) :
    openTxModel tns none body
      = (Event.openTx :: ev ++ [Event.commitTx]
          ++ (tns.filter isReactiveTable).map Event.refresh, none) ∧
    (∀ t, Event.refresh t ∈ (tns.filter isReactiveTable).map Event.refresh →
      isReactiveTable t = true) ∧
    isReactiveTable .imageFile = false := by
  refine ⟨?_, ?_, rfl⟩
  · simp [openTxModel, hbody]
  · intro t ht
    obtain ⟨u, hu, he⟩ := List.mem_map.mp ht
    cases he
    exact List.of_mem_filter hu

/-- C6 witness: one successful body over tables Image and ImageFile:
the commit precedes the single refresh, and ImageFile gets none. -/
theorem withTransaction_commit_then_refresh_witness :
    openTxModel [TableName.image, TableName.imageFile] none
        (fun _ => ([], (none : Option Unit)))
      = ([Event.openTx, Event.commitTx, Event.refresh .image], none) :=
  ((withTransaction_commit_then_refresh [TableName.image, TableName.imageFile]
      (fun _ => ([], none)) [] rfl).1).trans (by decide)

/-- C7: when the wrapper opens a new handle and the body raises an error,
the error propagates to the caller, nothing is committed and no mirror
refresh is performed: the trace gains no commit and no refresh event
beyond the body's own. -/
theorem withTransaction_error_propagates {E : Type} (tns : List TableName)
    (body : Nat → List Event × Option E) (ev : List Event) (e : E)
    (hbody : body 0 = (ev, some e)) :
    openTxModel tns none body = (Event.openTx :: ev, some e) ∧
    (openTxModel tns none body).1.count Event.commitTx = ev.count Event.commitTx ∧
    (openTxModel tns none body).1.filter isRefreshEvent
      = ev.filter isRefreshEvent := by
  have h1 : openTxModel tns none body = (Event.openTx :: ev, some e) := by
    simp [openTxModel, hbody]
  refine ⟨h1, ?_, ?_⟩
  · rw [h1]
    simp [List.count_cons]
  · rw [h1]
    simp only [List.filter_cons]
    rfl

/-- C7 witness: a body that raises error `()` having done nothing. -/
theorem withTransaction_error_propagates_witness :
    openTxModel [TableName.image] none (fun _ => ([], some ()))
      = ([Event.openTx], some ()) :=
  (withTransaction_error_propagates [TableName.image]
    (fun _ => ([], some ())) [] () rfl).1

theorem objGet_objSet_self (r : Raw) (p : String) (v : Key) :
    objGet (objSet r p v) p = some v := by
  induction r with
  | nil => simp [objSet, objGet]
  | cons f fs ih =>
    by_cases h : f.1 = p
    · simp [objSet, objGet, h]
    · simpa [objSet, objGet, h] using ih

theorem objGet_objSet_ne (r : Raw) (p q : String) (v : Key) (hq : q ≠ p) :
    objGet (objSet r p v) q = objGet r q := by
  have hpq : ¬ (p = q) := fun h => hq h.symm
  induction r with
  | nil => simp [objSet, objGet, hpq]
  | cons f fs ih =>
    by_cases h : f.1 = p
    · have hfq : ¬ (f.1 = q) := by
        rw [h]
        exact hpq
      simp [objSet, objGet, h, hpq, hfq]
    · by_cases h2 : f.1 = q
      · simp [objSet, objGet, h, h2, hq]
      · simpa [objSet, objGet, h, h2] using ih

theorem idOfRaw_objSet_ne (r : Raw) (p : String) (v : Key) (hp : p ≠ "id") :
    idOfRaw (objSet r p v) = idOfRaw r :=
  objGet_objSet_ne r p "id" v (fun h => hp h.symm)

theorem mem_storePut {s : Store} {v x : Raw} (h : x ∈ storePut s v) :
    x ∈ s ∨ x = v := by
  induction s with
  | nil =>
    simp [storePut] at h
    exact Or.inr h
  | cons r rs ih =>
    by_cases hr : idOfRaw r = idOfRaw v
    · simp only [storePut, hr, if_true, List.mem_cons] at h
      rcases h with h | h
      · exact Or.inr h
      · exact Or.inl (List.mem_cons_of_mem r h)
    · simp only [storePut, hr, if_false, List.mem_cons] at h
      rcases h with h | h
      · exact Or.inl (by simp [h])
      · rcases ih h with h' | h'
        · exact Or.inl (List.mem_cons_of_mem r h')
        · exact Or.inr h'

theorem storePut_pairwise {s : Store} {v : Raw} (h : s.Pairwise idNe) :
    (storePut s v).Pairwise idNe := by
  induction s with
  | nil => simp [storePut, List.pairwise_cons]
  | cons r rs ih =>
    rw [List.pairwise_cons] at h
    by_cases hr : idOfRaw r = idOfRaw v
    · simp only [storePut, hr, if_true]
      rw [List.pairwise_cons]
      refine ⟨fun x hx => ?_, h.2⟩
      have hrx := h.1 x hx
      unfold idNe at hrx ⊢
      rw [← hr]
      exact hrx
    · simp only [storePut, hr, if_false]
      rw [List.pairwise_cons]
      refine ⟨fun x hx => ?_, ih h.2⟩
      rcases mem_storePut hx with h' | h'
      · exact h.1 x h'
      · rw [h']
        exact hr

theorem storeGet_mem {s : Store} {k : Key} {r : Raw} (h : storeGet s k = some r) :
    r ∈ s := by
  induction s with
  | nil => simp [storeGet] at h
  | cons r0 rs ih =>
    by_cases h0 : idOfRaw r0 = some k
    · simp only [storeGet, h0, if_true, Option.some.injEq] at h
      simp [h]
    · simp only [storeGet, h0, if_false] at h
      exact List.mem_cons_of_mem r0 (ih h)

theorem storeGet_id {s : Store} {k : Key} {r : Raw} (h : storeGet s k = some r) :
    idOfRaw r = some k := by
  induction s with
  | nil => simp [storeGet] at h
  | cons r0 rs ih =>
    by_cases h0 : idOfRaw r0 = some k
    · simp only [storeGet, h0, if_true, Option.some.injEq] at h
      rw [← h]
      exact h0
    · simp only [storeGet, h0, if_false] at h
      exact ih h

theorem storeGet_none_iff {s : Store} {k : Key} :
    storeGet s k = none ↔ ∀ r ∈ s, idOfRaw r ≠ some k := by
  induction s with
  | nil => simp [storeGet]
  | cons r0 rs ih =>
    by_cases h0 : idOfRaw r0 = some k
    · simp [storeGet, h0]
    · simp [storeGet, h0, ih]

theorem storeGet_isSome_of_mem {s : Store} {k : Key} {r : Raw} (hr : r ∈ s)
    (hid : idOfRaw r = some k) : (storeGet s k).isSome := by
  induction s with
  | nil => simp at hr
  | cons r0 rs ih =>
    by_cases h0 : idOfRaw r0 = some k
    · simp [storeGet, h0]
    · rcases List.mem_cons.mp hr with h' | h'
      · exact absurd (h' ▸ hid) h0
      · simpa [storeGet, h0] using ih h'

theorem storeDel_eq_self {s : Store} {k : Key}
    (h : ∀ r ∈ s, idOfRaw r ≠ some k) : storeDel s k = s := by
  unfold storeDel
  rw [List.filter_eq_self]
  intro r hr
  simpa using h r hr

theorem storePut_fresh {s : Store} {v : Raw}
    (h : ∀ r ∈ s, idOfRaw r ≠ idOfRaw v) : storePut s v = s ++ [v] := by
  induction s with
  | nil => rfl
  | cons r rs ih =>
    have hr := h r (by simp)
    simp only [storePut, hr, if_false, List.cons_append, List.cons.injEq, true_and]
    exact ih (fun x hx => h x (List.mem_cons_of_mem r hx))

theorem set_perm_cons_eraseIdx {α : Type} (l : List α) (i : Nat) (x : α)
    (hi : i < l.length) : (l.set i x).Perm (x :: l.eraseIdx i) := by
  induction l generalizing i with
  | nil => simp at hi
  | cons y ys ih =>
    cases i with
    | zero => simp [List.set, List.eraseIdx]
    | succ j =>
      simp only [List.set, List.eraseIdx]
      have hj : j < ys.length := by simpa using hi
      exact ((ih j hj).cons y).trans (List.Perm.swap x y (ys.eraseIdx j))

theorem perm_get_cons_eraseIdx {α : Type} (l : List α) (i : Nat)
    (hi : i < l.length) : l.Perm (l.get ⟨i, hi⟩ :: l.eraseIdx i) := by
  induction l generalizing i with
  | nil => simp at hi
  | cons y ys ih =>
    cases i with
    | zero => simp [List.eraseIdx]
    | succ j =>
      simp only [List.get, List.eraseIdx]
      have hj : j < ys.length := by simpa using hi
      exact ((ih j hj).cons y).trans (List.Perm.swap _ y (ys.eraseIdx j))

theorem chain'_set {α : Type} {R : α → α → Prop} {l : List α} {i : Nat} {b : α}
    (hc : l.Chain' R) (hi : i < l.length)
    (h1 : ∀ x, R x (l.get ⟨i, hi⟩) → R x b)
    (h2 : ∀ x, R (l.get ⟨i, hi⟩) x → R b x) : (l.set i b).Chain' R := by
  rw [List.chain'_iff_get] at hc ⊢
  intro j hj
  have hlen : (l.set i b).length = l.length := by simp
  rw [hlen] at hj
  have hj1 : j < l.length := by omega
  have hj2 : j + 1 < l.length := by omega
  have hget : ∀ (m : Nat) (hm : m < l.length),
      (l.set i b).get ⟨m, by simpa [hlen] using hm⟩
        = if i = m then b else l.get ⟨m, hm⟩ := by
    intro m hm
    by_cases he : i = m
    · subst he
      simp [List.get_set]
    · simp [List.get_set, he]
  have hr := hc j hj
  by_cases hji : i = j
  · subst hji
    rw [List.get_eq_getElem]
    rw [List.get_eq_getElem] at hr ⊢
    have e1 := hget i hj1
    have e2 := hget (i + 1) hj2
    simp only [if_pos rfl] at e1
    have hne : ¬ (i = i + 1) := by omega
    simp only [if_neg hne] at e2
    simp only [List.get_eq_getElem] at e1 e2
    rw [e1, e2]
    exact h2 _ (by simpa using hr)
  · by_cases hji2 : i = j + 1
    · subst hji2
      have e1 := hget j hj1
      have e2 := hget (j + 1) hj2
      simp only [if_neg (by omega : ¬ (j + 1 = j)), if_pos rfl] at e1 e2
      simp only [List.get_eq_getElem] at e1 e2 ⊢
      rw [e1, e2]
      exact h1 _ (by simpa using hr)
    · have e1 := hget j hj1
      have e2 := hget (j + 1) hj2
      simp only [if_neg hji, if_neg hji2] at e1 e2
      simp only [List.get_eq_getElem] at e1 e2 ⊢
      rw [e1, e2]
      simpa using hr

theorem findIdx?_some_get {α : Type} {p : α → Bool} {l : List α} {i : Nat}
    (h : l.findIdx? p = some i) :
    ∃ hi : i < l.length, p (l.get ⟨i, hi⟩) = true := by
  induction l generalizing i with
  | nil => simp [List.findIdx?] at h
  | cons y ys ih =>
    by_cases hy : p y
    · rw [List.findIdx?_cons, if_pos hy] at h
      cases h
      exact ⟨by simp, by simpa using hy⟩
    · rw [List.findIdx?_cons, if_neg hy, List.findIdx?_succ] at h
      have := Option.map_eq_some'.mp h
      obtain ⟨j, hj, rfl⟩ := this
      obtain ⟨hjlen, hjp⟩ := ih hj
      exact ⟨by simpa using hjlen, by simpa using hjp⟩

theorem findIdx?_isSome_of {α : Type} {p : α → Bool} {l : List α} {x : α}
    (hx : x ∈ l) (hp : p x = true) : (l.findIdx? p).isSome := by
  cases h : l.findIdx? p with
  | some i => rfl
  | none =>
    rw [List.findIdx?_eq_none_iff] at h
    exact absurd (h x hx) (by simp [hp])

theorem pairwise_key_inj {α β : Type} {f : α → β} {l : List α}
    (h : l.Pairwise (fun a b => f a ≠ f b)) {a b : α} (ha : a ∈ l) (hb : b ∈ l)
    (hfab : f a = f b) : a = b := by
  induction l with
  | nil => simp at ha
  | cons y ys ih =>
    rw [List.pairwise_cons] at h
    rcases List.mem_cons.mp ha with h1 | h1 <;> rcases List.mem_cons.mp hb with h2 | h2
    · rw [h1, h2]
    · subst h1
      exact absurd hfab (h.1 b h2)
    · subst h2
      exact absurd hfab.symm (h.1 a h1)
    · exact ih h.2 h1 h2

theorem assertAll_eq_filterMap {V : Type} {assert : Raw → Option V} {l : List Raw}
    {L : List V} (h : assertAll assert l = some L) : L = l.filterMap assert := by
  induction l generalizing L with
  | nil =>
    simp [assertAll] at h
    simp [← h]
  | cons r rs ih =>
    cases hr : assert r with
    | none => simp [assertAll, hr] at h
    | some v =>
      cases hrs : assertAll assert rs with
      | none => simp [assertAll, hr, hrs] at h
      | some vs =>
        simp only [assertAll, hr, hrs] at h
        cases h
        simp [List.filterMap_cons, hr, ih hrs]

theorem assertAll_isSome {V : Type} {assert : Raw → Option V} {l : List Raw}
    (h : ∀ r ∈ l, (assert r).isSome) : (assertAll assert l).isSome := by
  induction l with
  | nil => simp [assertAll]
  | cons r rs ih =>
    have hr := h r (by simp)
    obtain ⟨v, hv⟩ := Option.isSome_iff_exists.mp hr
    have hrs := ih (fun x hx => h x (List.mem_cons_of_mem r hx))
    obtain ⟨vs, hvs⟩ := Option.isSome_iff_exists.mp hrs
    simp [assertAll, hv, hvs]

theorem assertAll_mem_isSome {V : Type} {assert : Raw → Option V} {l : List Raw}
    {L : List V} (h : assertAll assert l = some L) :
    ∀ r ∈ l, (assert r).isSome := by
  induction l generalizing L with
  | nil => simp
  | cons r rs ih =>
    cases hr : assert r with
    | none => simp [assertAll, hr] at h
    | some v =>
      cases hrs : assertAll assert rs with
      | none => simp [assertAll, hr, hrs] at h
      | some vs =>
        intro x hx
        rcases List.mem_cons.mp hx with h1 | h1
        · simp [h1, hr]
        · exact ih hrs x h1

theorem mem_jsSort {α : Type} {cmp : α → α → Int} {l : List α} {x : α} :
    x ∈ jsSort cmp l ↔ x ∈ l :=
  (jsSort_perm cmp l).mem_iff

theorem validated_pairwise {V : Type} {assert : Raw → Option V} {vid : V → Key}
    (hpres : ∀ r u, assert r = some u → idOfRaw r = some (vid u))
    {s : Store} (hpw : s.Pairwise idNe) :
    (s.filterMap assert).Pairwise (fun a b => vid a ≠ vid b) := by
  induction s with
  | nil => simp
  | cons r rs ih =>
    rw [List.pairwise_cons] at hpw
    cases hr : assert r with
    | none => simpa [List.filterMap_cons, hr] using ih hpw.2
    | some u =>
      rw [List.filterMap_cons, hr]
      rw [List.pairwise_cons]
      refine ⟨?_, ih hpw.2⟩
      intro x hx
      obtain ⟨r', hr', hxr'⟩ := List.mem_filterMap.mp hx
      have h1 := hpres r u hr
      have h2 := hpres r' x hxr'
      have hne := hpw.1 r' hr'
      unfold idNe at hne
      rw [h1, h2] at hne
      intro he
      exact hne (by rw [he])

theorem storeDel_cons (r : Raw) (rs : List Raw) (k : Key) :
    storeDel (r :: rs) k
      = if idOfRaw r = some k then storeDel rs k else r :: storeDel rs k := by
  by_cases h : idOfRaw r = some k <;> simp [storeDel, List.filter_cons, h]

theorem storeDel_eq_self_of_pairwise {rs : List Raw} {r : Raw} {k : Key}
    (hpw : ∀ a ∈ rs, idNe r a) (hrk : idOfRaw r = some k) : storeDel rs k = rs := by
  apply storeDel_eq_self
  intro x hx
  have := hpw x hx
  unfold idNe at this
  rw [hrk] at this
  exact fun he => this he.symm

theorem filterMap_storePut_perm {V : Type} {assert : Raw → Option V} {s : Store}
    {v : Raw} {out : V} {k : Key} (hpw : s.Pairwise idNe) (hv : assert v = some out)
    (hk : idOfRaw v = some k) (hex : ∃ r0 ∈ s, idOfRaw r0 = some k) :
    ((storePut s v).filterMap assert).Perm
      (out :: (storeDel s k).filterMap assert) := by
  induction s with
  | nil =>
    obtain ⟨r0, hr0, _⟩ := hex
    simp at hr0
  | cons r rs ih =>
    rw [List.pairwise_cons] at hpw
    by_cases hr : idOfRaw r = idOfRaw v
    · have hrk : idOfRaw r = some k := by rw [hr, hk]
      have hrs : storeDel rs k = rs := storeDel_eq_self_of_pairwise hpw.1 hrk
      rw [storeDel_cons, if_pos hrk, hrs]
      simp only [storePut, hr, if_true]
      simp [List.filterMap_cons, hv]
    · have hrk : ¬ idOfRaw r = some k := by
        rw [hk] at hr
        exact hr
      have hex' : ∃ r0 ∈ rs, idOfRaw r0 = some k := by
        obtain ⟨r0, hr0, hr0k⟩ := hex
        rcases List.mem_cons.mp hr0 with h' | h'
        · exact absurd (h' ▸ hr0k) hrk
        · exact ⟨r0, h', hr0k⟩
      have IH := ih hpw.2 hex'
      rw [storeDel_cons, if_neg hrk]
      simp only [storePut, hr, if_false]
      cases hra : assert r with
      | none => simpa [List.filterMap_cons, hra] using IH
      | some w =>
        simp only [List.filterMap_cons, hra] at IH ⊢
        exact (IH.cons w).trans (List.Perm.swap out w _)

theorem filterMap_storeDel_perm {V : Type} {assert : Raw → Option V} {s : Store}
    {item : Raw} {u : V} {k : Key} (hpw : s.Pairwise idNe)
    (hget : storeGet s k = some item) (hu : assert item = some u) :
    (s.filterMap assert).Perm (u :: (storeDel s k).filterMap assert) := by
  induction s with
  | nil => simp [storeGet] at hget
  | cons r rs ih =>
    rw [List.pairwise_cons] at hpw
    by_cases h0 : idOfRaw r = some k
    · simp only [storeGet, h0, if_true, Option.some.injEq] at hget
      subst hget
      have hrs : storeDel rs k = rs := storeDel_eq_self_of_pairwise hpw.1 h0
      rw [storeDel_cons, if_pos h0, hrs]
      simp [List.filterMap_cons, hu]
    · simp only [storeGet, h0, if_false] at hget
      have IH := ih hpw.2 hget
      rw [storeDel_cons, if_neg h0]
      cases hra : assert r with
      | none => simpa [List.filterMap_cons, hra] using IH
      | some w =>
        simp only [List.filterMap_cons, hra] at IH ⊢
        exact (IH.cons w).trans (List.Perm.swap u w _)

theorem mem_getAllModel {s : Store} {r : Raw} : r ∈ getAllModel s ↔ r ∈ s := by
  unfold getAllModel
  exact mem_jsSort

theorem refresh_state_inv {V : Type} (assert : Raw → Option V) (vid : V → Key)
    {store' : Store} {l : List V} (hpw : store'.Pairwise idNe)
    (hl : listAllModel assert vid store' = some l) :
    mirrorInv assert vid ⟨store', l⟩ := by
  unfold listAllModel at hl
  cases hL0 : assertAll assert (getAllModel store') with
  | none =>
    rw [hL0] at hl
    simp at hl
  | some L0 =>
    rw [hL0] at hl
    simp only [Option.map_some', Option.some.injEq] at hl
    refine ⟨?_, hpw, ?_, ?_⟩
    · intro r hr
      exact assertAll_mem_isSome hL0 r (mem_getAllModel.mpr hr)
    · rw [← hl]
      have h1 : (jsSort (recCmp vid) L0).Perm L0 := jsSort_perm _ _
      have h3 : ((getAllModel store').filterMap assert).Perm (store'.filterMap assert) :=
        (jsSort_perm _ _).filterMap assert
      unfold validatedOf
      refine h1.trans ?_
      rw [assertAll_eq_filterMap hL0]
      exact h3
    · rw [← hl]
      exact jsSort_chain _ (recCmp_anti vid) L0

theorem replace_preserves_inv {V : Type} {assert : Raw → Option V} {vid : V → Key}
    (hpres : ∀ r u, assert r = some u → idOfRaw r = some (vid u))
    {st : TState V} (hinv : mirrorInv assert vid st) {v : Raw} {out : V} {k : Key}
    {i : Nat} (hv : assert v = some out) (hk : idOfRaw v = some k)
    (hfind : st.mirror.findIdx? (fun it => vid it = k) = some i) :
    mirrorInv assert vid ⟨storePut st.store v, st.mirror.set i out⟩ := by
  obtain ⟨hvalid, hpw, hperm, hchain⟩ := hinv
  obtain ⟨hi, hpi⟩ := findIdx?_some_get hfind
  have hvidi : vid (st.mirror.get ⟨i, hi⟩) = k := by simpa using hpi
  have hmemi : st.mirror.get ⟨i, hi⟩ ∈ validatedOf assert st.store :=
    hperm.mem_iff.mp (st.mirror.get_mem _ hi)
  obtain ⟨r0, hr0mem, hr0⟩ := List.mem_filterMap.mp hmemi
  have hr0id : idOfRaw r0 = some k := by
    rw [hpres r0 _ hr0, hvidi]
  obtain ⟨item, hitem⟩ :=
    Option.isSome_iff_exists.mp (storeGet_isSome_of_mem hr0mem hr0id)
  have hitemid := storeGet_id hitem
  have hitemmem := storeGet_mem hitem
  obtain ⟨u0, hu0⟩ := Option.isSome_iff_exists.mp (hvalid item hitemmem)
  have hvidu0 : vid u0 = k := by
    have := hpres item u0 hu0
    rw [hitemid] at this
    exact (Option.some.injEq _ _ ▸ this).symm
  have hvpw := validated_pairwise hpres hpw
  have hu0mem : u0 ∈ validatedOf assert st.store :=
    List.mem_filterMap.mpr ⟨item, hitemmem, hu0⟩
  have hgeteq : st.mirror.get ⟨i, hi⟩ = u0 :=
    pairwise_key_inj hvpw hmemi hu0mem (by rw [hvidi, hvidu0])
  have hvidout : vid out = k := by
    have := hpres v out hv
    rw [hk] at this
    exact (Option.some.injEq _ _ ▸ this).symm
  refine ⟨?_, storePut_pairwise hpw, ?_, ?_⟩
  · intro r hr
    rcases mem_storePut hr with h' | h'
    · exact hvalid r h'
    · rw [h', hv]
      rfl
  · have p1 : (st.mirror.set i out).Perm (out :: st.mirror.eraseIdx i) :=
      set_perm_cons_eraseIdx _ _ _ hi
    have p2 : st.mirror.Perm (st.mirror.get ⟨i, hi⟩ :: st.mirror.eraseIdx i) :=
      perm_get_cons_eraseIdx _ _ hi
    have p3 : (validatedOf assert st.store).Perm
        (u0 :: (storeDel st.store k).filterMap assert) :=
      filterMap_storeDel_perm hpw hitem hu0
    have p4 : (st.mirror.eraseIdx i).Perm ((storeDel st.store k).filterMap assert) := by
      have h5 := (p2.symm.trans hperm).trans p3
      rw [hgeteq] at h5
      exact h5.cons_inv
    have p5 : ((storePut st.store v).filterMap assert).Perm
        (out :: (storeDel st.store k).filterMap assert) :=
      filterMap_storePut_perm hpw hv hk ⟨item, hitemmem, hitemid⟩
    exact (p1.trans (p4.cons out)).trans p5.symm
  · apply chain'_set hchain hi
    · intro x hx
      unfold leOf recCmp at hx ⊢
      rw [hvidout, ← hvidi]
      exact hx
    · intro x hx
      unfold leOf recCmp at hx ⊢
      rw [hvidout, ← hvidi]
      exact hx

theorem setStep_preserves_inv {V : Type} {assert : Raw → Option V} {vid : V → Key}
    (hpres : ∀ r u, assert r = some u → idOfRaw r = some (vid u))
    {st : TState V} (hinv : mirrorInv assert vid st) {v : Raw} {st' : TState V}
    (hstep : setStep assert vid st v = some st') : mirrorInv assert vid st' := by
  cases hv : assert v with
  | none => simp [setStep, hv] at hstep
  | some out =>
  cases hk : idOfRaw v with
  | none => simp [setStep, hv, hk] at hstep
  | some k =>
  cases hfind : st.mirror.findIdx? (fun it => vid it = k) with
  | some i =>
    simp only [setStep, hv, hk, hfind, Option.some.injEq] at hstep
    rw [← hstep]
    exact replace_preserves_inv hpres hinv hv hk hfind
  | none =>
    simp only [setStep, hv, hk, hfind, Option.some.injEq] at hstep
    obtain ⟨hvalid, hpw, hperm, hchain⟩ := hinv
    have hnomirror : ∀ it ∈ st.mirror, vid it ≠ k := by
      intro it hit
      have := List.findIdx?_eq_none_iff.mp hfind it hit
      simpa using this
    have hfreshid : ∀ r0 ∈ st.store, idOfRaw r0 ≠ idOfRaw v := by
      intro r0 hr0 he
      obtain ⟨u, hu⟩ := Option.isSome_iff_exists.mp (hvalid r0 hr0)
      have humem : u ∈ validatedOf assert st.store :=
        List.mem_filterMap.mpr ⟨r0, hr0, hu⟩
      have humirror : u ∈ st.mirror := hperm.mem_iff.mpr humem
      have hidu := hpres r0 u hu
      rw [he, hk] at hidu
      exact hnomirror u humirror (Option.some.injEq _ _ ▸ hidu).symm
    have hput : storePut st.store v = st.store ++ [v] := storePut_fresh hfreshid
    rw [← hstep]
    refine ⟨?_, ?_, ?_, ?_⟩
    · intro r hr
      rcases mem_storePut hr with h' | h'
      · exact hvalid r h'
      · rw [h', hv]
        rfl
    · exact storePut_pairwise hpw
    · have h1 : (jsSort (recCmp vid) (st.mirror ++ [out])).Perm (st.mirror ++ [out]) :=
        jsSort_perm _ _
      have h2 : (st.mirror ++ [out]).Perm (validatedOf assert st.store ++ [out]) :=
        hperm.append_right [out]
      have h3 : validatedOf assert (storePut st.store v)
          = validatedOf assert st.store ++ [out] := by
        unfold validatedOf
        rw [hput, List.filterMap_append]
        simp [List.filterMap_cons, hv]
      rw [h3]
      exact h1.trans h2
    · exact jsSort_chain _ (recCmp_anti vid) _

theorem updateStep_preserves_inv {V : Type} {assert : Raw → Option V} {vid : V → Key}
    (hpres : ∀ r u, assert r = some u → idOfRaw r = some (vid u))
    {st : TState V} (hinv : mirrorInv assert vid st) {k : Key} {prop : String}
    {v : Key} (hprop : prop ≠ "id") {res : TState V × Bool}
    (hstep : updateStep assert vid st k prop v = some res) :
    mirrorInv assert vid res.1 := by
  cases hget : storeGet st.store k with
  | none =>
    simp only [updateStep, hget, Option.some.injEq] at hstep
    rw [← hstep]
    exact hinv
  | some item =>
  cases hout : assert (objSet item prop v) with
  | none => simp [updateStep, hget, hout] at hstep
  | some out =>
  have hitemid : idOfRaw (objSet item prop v) = idOfRaw item :=
    idOfRaw_objSet_ne item prop v hprop
  have hitemk : idOfRaw item = some k := storeGet_id hget
  have hk' : idOfRaw (objSet item prop v) = some k := by rw [hitemid, hitemk]
  cases hfind : st.mirror.findIdx? (fun it => vid it = k) with
  | some i =>
    simp only [updateStep, hget, hout, hk', hfind, Option.some.injEq] at hstep
    rw [← hstep]
    exact replace_preserves_inv hpres hinv hout hk' hfind
  | none =>
    simp only [updateStep, hget, hout, hk', hfind] at hstep
    cases hl : listAllModel assert vid (storePut st.store (objSet item prop v)) with
    | none => rw [hl] at hstep; simp at hstep
    | some l =>
      rw [hl] at hstep
      simp only [Option.map_some', Option.some.injEq] at hstep
      rw [← hstep]
      exact refresh_state_inv assert vid (storePut_pairwise hinv.2.1) hl

theorem removeStep_preserves_inv {V : Type} {assert : Raw → Option V} {vid : V → Key}
    (hpres : ∀ r u, assert r = some u → idOfRaw r = some (vid u))
    {st : TState V} (hinv : mirrorInv assert vid st) {k : Key} {st' : TState V}
    (hstep : removeStep assert vid st k = some st') : mirrorInv assert vid st' := by
  obtain ⟨hvalid, hpw, hperm, hchain⟩ := hinv
  have hpw' : (storeDel st.store k).Pairwise idNe :=
    List.Pairwise.sublist (List.filter_sublist _) hpw
  cases hl : listAllModel assert vid (storeDel st.store k) with
  | none => simp [removeStep, hl] at hstep
  | some refreshed =>
  cases hfind : st.mirror.findIdx? (fun it => vid it = k) with
  | some i =>
    simp only [removeStep, hl, hfind, Option.some.injEq] at hstep
    rw [← hstep]
    exact refresh_state_inv assert vid hpw' hl
  | none =>
    simp only [removeStep, hl, hfind, Option.some.injEq] at hstep
    have hnomirror : ∀ it ∈ st.mirror, vid it ≠ k := by
      intro it hit
      have := List.findIdx?_eq_none_iff.mp hfind it hit
      simpa using this
    have hnostore : ∀ r0 ∈ st.store, idOfRaw r0 ≠ some k := by
      intro r0 hr0 he
      obtain ⟨u, hu⟩ := Option.isSome_iff_exists.mp (hvalid r0 hr0)
      have humirror : u ∈ st.mirror :=
        hperm.mem_iff.mpr (List.mem_filterMap.mpr ⟨r0, hr0, hu⟩)
      have hidu := hpres r0 u hu
      rw [he] at hidu
      exact hnomirror u humirror (Option.some.injEq _ _ ▸ hidu).symm
    have hdel : storeDel st.store k = st.store := storeDel_eq_self hnostore
    rw [← hstep, hdel]
    exact ⟨hvalid, hpw, hperm, hchain⟩

theorem applyRawOp_pairwise {s s' : Store} {op : RawOp} (hpw : s.Pairwise idNe)
    (h : applyRawOp s op = some s') : s'.Pairwise idNe := by
  cases op with
  | put v =>
    cases hid : idOfRaw v with
    | none => simp [applyRawOp, hid] at h
    | some k =>
      simp only [applyRawOp, hid, Option.map_some', Option.some.injEq] at h
      rw [← h]
      exact storePut_pairwise hpw
  | del k =>
    simp only [applyRawOp, Option.some.injEq] at h
    rw [← h]
    exact List.Pairwise.sublist (List.filter_sublist _) hpw
  | clr =>
    simp only [applyRawOp, Option.some.injEq] at h
    rw [← h]
    exact List.Pairwise.nil

theorem applyRawOps_pairwise {s s' : Store} {ops : List RawOp} (hpw : s.Pairwise idNe)
    (h : applyRawOps s ops = some s') : s'.Pairwise idNe := by
  induction ops generalizing s with
  | nil =>
    simp only [applyRawOps, Option.some.injEq] at h
    rw [← h]
    exact hpw
  | cons op ops ih =>
    cases h0 : applyRawOp s op with
    | none => simp [applyRawOps, h0] at h
    | some s1 =>
      simp only [applyRawOps, h0, Option.bind_some] at h
      exact ih (applyRawOp_pairwise hpw h0) h

theorem txnStep_preserves_inv {V : Type} {assert : Raw → Option V} {vid : V → Key}
    {st : TState V} (hinv : mirrorInv assert vid st) {ops : List RawOp}
    {st' : TState V} (hstep : txnStep assert vid st ops = some st') :
    mirrorInv assert vid st' := by
  cases hs : applyRawOps st.store ops with
  | none => simp [txnStep, hs] at hstep
  | some store' =>
  cases hl : listAllModel assert vid store' with
  | none => simp [txnStep, hs, hl] at hstep
  | some l =>
    simp only [txnStep, hs, hl, Option.map_some', Option.some.injEq] at hstep
    rw [← hstep]
    exact refresh_state_inv assert vid (applyRawOps_pairwise hinv.2.1 hs) hl

theorem step_preserves_inv {V : Type} {assert : Raw → Option V} {vid : V → Key}
    (hpres : ∀ r u, assert r = some u → idOfRaw r = some (vid u))
    {st : TState V} (hinv : mirrorInv assert vid st) {op : Op}
    (hop : nonIdUpdate op = true) {st' : TState V}
    (hstep : step assert vid st op = some st') : mirrorInv assert vid st' := by
  cases op with
  | set v => exact setStep_preserves_inv hpres hinv hstep
  | add v gid => exact setStep_preserves_inv hpres hinv hstep
  | update k prop v =>
    simp only [step] at hstep
    cases hres : updateStep assert vid st k prop v with
    | none => rw [hres] at hstep; simp at hstep
    | some res =>
      rw [hres] at hstep
      simp only [Option.map_some', Option.some.injEq] at hstep
      have hprop : prop ≠ "id" := by simpa [nonIdUpdate] using hop
      rw [← hstep]
      exact updateStep_preserves_inv hpres hinv hprop hres
  | remove k => exact removeStep_preserves_inv hpres hinv hstep
  | clear =>
    simp only [step, Option.some.injEq] at hstep
    rw [← hstep]
    exact ⟨by simp, List.Pairwise.nil, by simp [validatedOf], List.chain'_nil⟩
  | txn ops => exact txnStep_preserves_inv hinv hstep

theorem runOps_preserves_inv {V : Type} {assert : Raw → Option V} {vid : V → Key}
    (hpres : ∀ r u, assert r = some u → idOfRaw r = some (vid u))
    {st : TState V} (hinv : mirrorInv assert vid st) {ops : List Op}
    (hops : ∀ op ∈ ops, nonIdUpdate op = true) {st' : TState V}
    (hrun : runOps assert vid st ops = some st') : mirrorInv assert vid st' := by
  induction ops generalizing st with
  | nil =>
    simp only [runOps, Option.some.injEq] at hrun
    rw [← hrun]
    exact hinv
  | cons op ops ih =>
    cases h0 : step assert vid st op with
    | none => simp [runOps, h0] at hrun
    | some st1 =>
      simp only [runOps, h0, Option.bind_some] at hrun
      have hinv1 := step_preserves_inv hpres hinv (hops op (by simp)) h0
      exact ih hinv1 (fun x hx => hops x (List.mem_cons_of_mem op hx)) hrun

theorem assertIdentity_pres :
    ∀ r u, assertIdentity r = some u → idOfRaw r = some (vidField u) := by
  intro r u h
  by_cases hid : (objGet r "id").isSome
  · simp only [assertIdentity, hid, if_true, Option.some.injEq] at h
    subst h
    obtain ⟨k, hk⟩ := Option.isSome_iff_exists.mp hid
    simp [idOfRaw, vidField, hk]
  · simp [assertIdentity, hid] at h

/-- C1 counterexample: starting from an empty table, `set {id:"a"}`
followed by `update("a", "id", "b")` completes, but leaves the durable
store holding both records "a" and "b" (the put is keyed by the new id,
the old record stays) while the mirror was patched in place and holds
only the "b" record: the mirror is not the sorted validated store
listing — it is not even a permutation of the validated contents. -/
theorem mirror_update_id_cex :
    runOps assertIdentity vidField ⟨[], []⟩
        [.set [("id", Key.str "a")], .update (Key.str "a") "id" (Key.str "b")]
      = some ⟨[[("id", Key.str "a")], [("id", Key.str "b")]],
              [[("id", Key.str "b")]]⟩ ∧
    listAllModel assertIdentity vidField
        [[("id", Key.str "a")], [("id", Key.str "b")]]
      = some [[("id", Key.str "a")], [("id", Key.str "b")]] ∧
    ([[("id", Key.str "b")]] : List Raw)
      ≠ [[("id", Key.str "a")], [("id", Key.str "b")]] ∧
    ¬ ([[("id", Key.str "b")]] : List Raw).Perm
        (([[("id", Key.str "a")], [("id", Key.str "b")]] : Store).filterMap
          assertIdentity) := by
  refine ⟨by decide, by decide, by decide, by decide⟩

/-- C1 amended: for every reactive table, validator and identifier
projection agreeing with it, after any finite sequence of completed
operations (set/add, update on a non-primary-key field, remove, clear,
transactions) starting from the empty table, the mirror holds exactly the
validated contents of the durable store (equal as multisets), and every
pair of consecutive mirror records is in identifier-comparator order.
(Full sequence equality with the sorted listing fails in general: an
update of the `id` field breaks even multiset equality — see the
counterexample — and the comparator has ties, for example "07" versus
"7", and order cycles, so a sorted sequence is not unique.) -/
theorem mirror_matches_store {V : Type} (assert : Raw → Option V) (vid : V → Key)
    (hpres : ∀ r u, assert r = some u → idOfRaw r = some (vid u))
    (ops : List Op) (hops : ∀ op ∈ ops, nonIdUpdate op = true)
    (st : TState V) (hrun : runOps assert vid ⟨[], []⟩ ops = some st) :
    st.mirror.Perm (st.store.filterMap assert) ∧
    st.mirror.Chain' (leOf (recCmp vid)) := by
  have hinit : mirrorInv assert vid ⟨[], []⟩ :=
    ⟨by simp, List.Pairwise.nil, by simp [validatedOf], List.chain'_nil⟩
  have hfinal := runOps_preserves_inv hpres hinit hops hrun
  exact ⟨hfinal.2.2.1, hfinal.2.2.2⟩

/-- C1 amended witness: a concrete run exercising set, add, update,
transaction and remove, after which the mirror equals the validated store
contents and is in comparator order. -/
theorem mirror_matches_store_witness :
    runOps assertIdentity vidField ⟨[], []⟩
        [.set [("id", Key.str "b")], .add [("n", Key.num 1)] "a1",
         .update (Key.str "b") "n" (Key.num 2),
         .txn [.put [("id", Key.str "c")]],
         .remove (Key.str "a1")]
      = some ⟨[[("id", Key.str "b"), ("n", Key.num 2)], [("id", Key.str "c")]],
              [[("id", Key.str "b"), ("n", Key.num 2)], [("id", Key.str "c")]]⟩ ∧
    ([[("id", Key.str "b"), ("n", Key.num 2)], [("id", Key.str "c")]] : List Raw).Perm
        (([[("id", Key.str "b"), ("n", Key.num 2)], [("id", Key.str "c")]] : Store).filterMap
          assertIdentity) ∧
    ([[("id", Key.str "b"), ("n", Key.num 2)], [("id", Key.str "c")]] : List Raw).Chain'
        (leOf (recCmp vidField)) := by
  have hrun : runOps assertIdentity vidField ⟨[], []⟩
      [.set [("id", Key.str "b")], .add [("n", Key.num 1)] "a1",
       .update (Key.str "b") "n" (Key.num 2),
       .txn [.put [("id", Key.str "c")]],
       .remove (Key.str "a1")]
    = some ⟨[[("id", Key.str "b"), ("n", Key.num 2)], [("id", Key.str "c")]],
            [[("id", Key.str "b"), ("n", Key.num 2)], [("id", Key.str "c")]]⟩ := by
    decide
  have h := mirror_matches_store assertIdentity vidField assertIdentity_pres
    [.set [("id", Key.str "b")], .add [("n", Key.num 1)] "a1",
     .update (Key.str "b") "n" (Key.num 2),
     .txn [.put [("id", Key.str "c")]],
     .remove (Key.str "a1")] (by decide)
    ⟨[[("id", Key.str "b"), ("n", Key.num 2)], [("id", Key.str "c")]],
     [[("id", Key.str "b"), ("n", Key.num 2)], [("id", Key.str "c")]]⟩ hrun
  exact ⟨hrun, h.1, h.2⟩

theorem listAllModel_isSome {V : Type} (assert : Raw → Option V) (vid : V → Key)
    {s : Store} (h : ∀ r ∈ s, (assert r).isSome) :
    (listAllModel assert vid s).isSome := by
  unfold listAllModel
  have hall := @assertAll_isSome V assert (getAllModel s)
    (fun r hr => h r (mem_getAllModel.mp hr))
  obtain ⟨L, hL⟩ := Option.isSome_iff_exists.mp hall
  simp [hL]

/-- C8: `update(key, field, value)` on a key absent from the durable
store returns the not-found signal `false` and changes neither the store
nor the mirror; on a key present in the store (with every stored record
valid, and the mutated record passing validation) it writes the mutated
full record back through validation — the durable store becomes
`put(mutated record)` — and returns `true`. -/
theorem updateField_spec {V : Type} (assert : Raw → Option V) (vid : V → Key)
    (hpres : ∀ r u, assert r = some u → idOfRaw r = some (vid u))
    (st : TState V) (k : Key) (prop : String) (v : Key) :
    (storeGet st.store k = none →
      updateStep assert vid st k prop v = some (st, false)) ∧
    (∀ item out, storeGet st.store k = some item →
      assert (objSet item prop v) = some out →
      (∀ r ∈ st.store, (assert r).isSome) →
      ∃ m, updateStep assert vid st k prop v
        = some (⟨storePut st.store (objSet item prop v), m⟩, true)) := by
  constructor
  · intro h
    simp [updateStep, h]
  · intro item out hget hout hvalid
    have hk' : idOfRaw (objSet item prop v) = some (vid out) := hpres _ _ hout
    cases hfind : st.mirror.findIdx? (fun it => vid it = k) with
    | some i =>
      refine ⟨st.mirror.set i out, ?_⟩
      simp [updateStep, hget, hout, hk', hfind]
    | none =>
      have hsome : (listAllModel assert vid
          (storePut st.store (objSet item prop v))).isSome := by
        apply listAllModel_isSome
        intro r hr
        rcases mem_storePut hr with h' | h'
        · exact hvalid r h'
        · rw [h', hout]
          rfl
      obtain ⟨l, hl⟩ := Option.isSome_iff_exists.mp hsome
      refine ⟨l, ?_⟩
      simp [updateStep, hget, hout, hk', hfind, hl]

/-- C8 witness: the absent case at an empty table returns `(st, false)`;
the present case mutates field "x" of record "a" and returns `true`. -/
theorem updateField_spec_witness :
    (updateStep assertIdentity vidField ⟨[], []⟩ (Key.str "a") "x" (Key.num 1)
      = some (⟨[], []⟩, false)) ∧
    ∃ m, updateStep assertIdentity vidField
        ⟨[[("id", Key.str "a"), ("x", Key.num 1)]],
         [[("id", Key.str "a"), ("x", Key.num 1)]]⟩
        (Key.str "a") "x" (Key.num 2)
      = some (⟨[[("id", Key.str "a"), ("x", Key.num 2)]], m⟩, true) := by
  constructor
  · exact (updateField_spec assertIdentity vidField assertIdentity_pres
      ⟨[], []⟩ (Key.str "a") "x" (Key.num 1)).1 (by decide)
  · obtain ⟨m, hm⟩ := (updateField_spec assertIdentity vidField assertIdentity_pres
      ⟨[[("id", Key.str "a"), ("x", Key.num 1)]],
       [[("id", Key.str "a"), ("x", Key.num 1)]]⟩
      (Key.str "a") "x" (Key.num 2)).2
      [("id", Key.str "a"), ("x", Key.num 1)]
      [("id", Key.str "a"), ("x", Key.num 2)]
      (by decide) (by decide) (by decide)
    have he : storePut [[("id", Key.str "a"), ("x", Key.num 1)]]
        (objSet [("id", Key.str "a"), ("x", Key.num 1)] "x" (Key.num 2))
        = [[("id", Key.str "a"), ("x", Key.num 2)]] := by decide
    rw [he] at hm
    exact ⟨m, hm⟩
